import Mathlib

/-!
Verification of the steganography CLI core: the error-resilient cipher
layer (ChaCha20 stream encryption + repetition forward error correction),
the bit framer, the capacity check of the embedding loop, the DCT-domain
bit embedding/extraction decision logic, and the quantization model.

Rust `u8`/`u32`/`usize` values are modelled as `Nat` with explicit
`% 2^8` / `% 2^32` at the points where the source performs a narrowing
cast or where a fixed-width counter could wrap.  Fallible functions
return `Except SteganographyError`.  Floating-point DCT coefficient
values are modelled as rationals where only ordering and exact
arithmetic on them matters.
-/

namespace Steg

/-- Error taxonomy of `src/error.rs` (`SteganographyError`).  The variants
that carry foreign error objects keep only a string message, as the
core never inspects them. -/
inductive SteganographyError where
  | imageError (message : String)
  | cryptoError (message : String)
  | dctError (message : String)
  | capacityError (required : Nat) (available : Nat)
  | invalidInput (message : String)
  | ioError (message : String)
  | base64Error (message : String)
  | utf8Error (message : String)
  deriving DecidableEq, Repr

/-! ## Bit framer (`steganography.rs`, `convert_data_to_bits_with_header`
and `convert_bits_to_data_with_header`) -/

/-- Big-endian bit expansion of the low `w` bits of `n`:
the list `[bit (w-1), ..., bit 0]`, as produced by the Rust loop
`for bit_position in (0..w).rev() { push ((n >> bit_position) & 1) }`. -/
def bitsBE : Nat → Nat → List Nat
  | 0, _ => []
  | (w+1), n => ((n >>> w) &&& 1) :: bitsBE w n

/-- `convert_data_to_bits_with_header`: a 32-bit big-endian length
header (the length narrowed by `as u32`) followed by each byte's 8 bits,
most significant first. -/
def convert_data_to_bits_with_header (data : List Nat) : List Nat :=
  bitsBE 32 (data.length % 2^32) ++ data.flatMap (fun b => bitsBE 8 b)

/-- The u32 header accumulator step `data_length = (data_length << 1) | bit`. -/
def headerStep (a b : Nat) : Nat := ((a <<< 1) ||| b) % 2^32

/-- The u8 byte accumulator step `byte_value = (byte_value << 1) | bit`. -/
def byteStep (a b : Nat) : Nat := ((a <<< 1) ||| b) % 2^8

/-- The chunked byte-reassembly loop of `convert_bits_to_data_with_header`:
`for bit_chunk in data_bits.chunks(8) { fold; push }`. -/
def bytesFromBits : List Nat → List Nat
  | [] => []
  | b :: rest => ((b :: rest).take 8).foldl byteStep 0 :: bytesFromBits ((b :: rest).drop 8)
  termination_by l => l.length
  decreasing_by simp; omega

/-- `convert_bits_to_data_with_header`: parse the 32-bit big-endian
length header, check enough data bits are present, and regroup the first
`length*8` data bits into bytes (MSB first); trailing bits are ignored. -/
def convert_bits_to_data_with_header (bit_stream : List Nat) :
    Except SteganographyError (List Nat) :=
  if bit_stream.length < 32 then
    .error (.invalidInput "Not enough bits for length header")
  else
    let data_length := (bit_stream.take 32).foldl headerStep 0
    let data_bits := bit_stream.drop 32
    let expected_bit_count := data_length * 8
    if data_bits.length < expected_bit_count then
      .error (.invalidInput "Not enough data bits")
    else
      .ok (bytesFromBits (data_bits.take expected_bit_count))

/-! ## Repetition code (`crypto.rs`, `apply_repetition_encoding` and
`apply_repetition_decoding`) -/

/-- `(n as u32).to_le_bytes()`: 4-byte little-endian serialisation of
the low 32 bits of `n`. -/
def toLE4 (n : Nat) : List Nat :=
  [n % 2^8, n / 2^8 % 2^8, n / 2^16 % 2^8, n / 2^24 % 2^8]

/-- `u32::from_le_bytes` on the first four bytes of a list. -/
def readLE4 (l : List Nat) : Nat :=
  l.getD 0 0 + 2^8 * l.getD 1 0 + 2^16 * l.getD 2 0 + 2^24 * l.getD 3 0

/-- `apply_repetition_encoding`: a 4-byte little-endian length header
followed by `repetition_factor` contiguous copies of each data byte, in
order, accumulated by the source's push loop. -/
def apply_repetition_encoding (repetition_factor : Nat) (original_data : List Nat) :
    List Nat :=
  original_data.foldl (fun acc b => acc ++ List.replicate repetition_factor b)
    (toLE4 (original_data.length % 2^32))

/-- The vote tally `vote_counts[v]` for the repeats of one byte position:
a `u32` occurrence counter. -/
def voteCount (repeated_bytes : List Nat) (v : Nat) : Nat :=
  (repeated_bytes.count v) % 2^32

/-- `vote_counts.iter().enumerate().max_by_key(...)`: Rust's
`max_by_key` keeps the **last** element among equally-maximal ones, so
scanning indices `0..256` in order yields the candidate whose count is
maximal, preferring the larger index on ties. -/
def voteWinner (counts : Nat → Nat) : Nat :=
  (List.range 256).foldl (fun best v => if counts best ≤ counts v then v else best) 0

/-- The per-byte majority-vote loop of `apply_repetition_decoding`,
`for byte_index in 0..original_data_length`, written as recursion on the
number of remaining output bytes (`i` is the current `byte_index`). -/
def repDecodeLoop (repetition_factor : Nat) (encoded_data : List Nat) :
    Nat → Nat → Except SteganographyError (List Nat)
  | 0, _ => .ok []
  | (k+1), i =>
    let repetition_start := 4 + i * repetition_factor
    let repetition_end := repetition_start + repetition_factor
    if encoded_data.length < repetition_end then
      .error (.invalidInput "Insufficient repetition data")
    else
      let repeated_bytes := (encoded_data.drop repetition_start).take repetition_factor
      match repDecodeLoop repetition_factor encoded_data k (i+1) with
      | .error e => .error e
      | .ok rest => .ok (voteWinner (voteCount repeated_bytes) :: rest)

/-- `apply_repetition_decoding`: read the little-endian length header,
check the exact expected encoded length, then majority-vote each byte. -/
def apply_repetition_decoding (repetition_factor : Nat) (encoded_data : List Nat) :
    Except SteganographyError (List Nat) :=
  if encoded_data.length < 4 then
    .error (.invalidInput "Encoded data too short for length header")
  else
    let original_data_length := readLE4 encoded_data
    let expected_encoded_length := 4 + original_data_length * repetition_factor
    if encoded_data.length ≠ expected_encoded_length then
      .error (.invalidInput "Invalid encoded data length")
    else
      repDecodeLoop repetition_factor encoded_data original_data_length 0

/-! ## ChaCha20 stream cipher (RFC 8439, the `chacha20` crate's
`ChaCha20` with a 12-byte nonce and 32-bit block counter starting at 0),
modelled on `Nat` words reduced `% 2^32`. -/

/-- 32-bit left rotation. -/
def rotl32 (x n : Nat) : Nat := ((x <<< n) ||| (x >>> (32 - n))) % 2^32

/-- 32-bit wrapping addition. -/
def add32 (x y : Nat) : Nat := (x + y) % 2^32

/-- The ChaCha quarter round on state words at indices `a b c d`. -/
def quarterRound (st : List Nat) (a b c d : Nat) : List Nat :=
  let A0 := st.getD a 0
  let B0 := st.getD b 0
  let C0 := st.getD c 0
  let D0 := st.getD d 0
  let A1 := add32 A0 B0
  let D1 := rotl32 (D0 ^^^ A1) 16
  let C1 := add32 C0 D1
  let B1 := rotl32 (B0 ^^^ C1) 12
  let A2 := add32 A1 B1
  let D2 := rotl32 (D1 ^^^ A2) 8
  let C2 := add32 C1 D2
  let B2 := rotl32 (B1 ^^^ C2) 7
  (((st.set a A2).set b B2).set c C2).set d D2

/-- One ChaCha double round: four column rounds then four diagonal rounds. -/
def chachaDoubleRound (st : List Nat) : List Nat :=
  let s1 := quarterRound st 0 4 8 12
  let s2 := quarterRound s1 1 5 9 13
  let s3 := quarterRound s2 2 6 10 14
  let s4 := quarterRound s3 3 7 11 15
  let s5 := quarterRound s4 0 5 10 15
  let s6 := quarterRound s5 1 6 11 12
  let s7 := quarterRound s6 2 7 8 13
  quarterRound s7 3 4 9 14

/-- The 20 ChaCha rounds (10 double rounds). -/
def chachaRounds (st : List Nat) : List Nat := chachaDoubleRound^[10] st

/-- Group a byte list into 32-bit little-endian words. -/
def leWords : List Nat → List Nat
  | b0 :: b1 :: b2 :: b3 :: rest => (b0 + 2^8 * b1 + 2^16 * b2 + 2^24 * b3) :: leWords rest
  | _ => []

/-- The initial ChaCha20 state: four constants, the 8-word key, the
block counter, and the 3-word nonce. -/
def chachaInit (key nonce : List Nat) (counter : Nat) : List Nat :=
  [0x61707865, 0x3320646e, 0x79622d32, 0x6b206574]
    ++ leWords key ++ [counter % 2^32] ++ leWords nonce

/-- One 64-byte ChaCha20 keystream block. -/
def chachaBlock (key nonce : List Nat) (counter : Nat) : List Nat :=
  let st := chachaInit key nonce counter
  (List.zipWith add32 (chachaRounds st) st).flatMap toLE4

/-- The first `n` bytes of the ChaCha20 keystream. -/
def chachaKeystream (key nonce : List Nat) (n : Nat) : List Nat :=
  ((List.range ((n + 63) / 64)).flatMap (chachaBlock key nonce)).take n

/-- `cipher.apply_keystream(&mut data)`: XOR the data with the keystream. -/
def apply_keystream (key nonce data : List Nat) : List Nat :=
  List.zipWith (fun a b => a ^^^ b) data (chachaKeystream key nonce data.length)

/-- `encrypt_with_error_correction` with the freshly drawn random nonce
made explicit: encrypt the plaintext, prepend the nonce, and
repetition-encode the combined blob.  (The Rust function returns
`Result` but its body cannot fail.) -/
def encrypt_with_error_correction (repetition_factor : Nat)
    (encryption_key nonce plaintext_data : List Nat) : List Nat :=
  let ciphertext_data := apply_keystream encryption_key nonce plaintext_data
  let encrypted_data := nonce ++ ciphertext_data
  apply_repetition_encoding repetition_factor encrypted_data

/-- `decrypt_with_error_correction`: repetition-decode, split off the
12-byte nonce, and apply the same keystream again. -/
def decrypt_with_error_correction (repetition_factor : Nat)
    (encryption_key error_corrected_data : List Nat) :
    Except SteganographyError (List Nat) :=
  match apply_repetition_decoding repetition_factor error_corrected_data with
  | .error _ => .error (.cryptoError "Repetition decoding failed")
  | .ok encrypted_data =>
    if encrypted_data.length < 12 then
      .error (.cryptoError "Encrypted data too short to contain nonce")
    else
      let nonce := encrypted_data.take 12
      let ciphertext_data := encrypted_data.drop 12
      .ok (apply_keystream encryption_key nonce ciphertext_data)

/-! ## Embedding configuration, capacity and the hide loop
(`steganography.rs`).  The per-block pixel processing (luminance
extraction, DCT, write-back) is `f32` code; the embedding loop is
parameterised by an arbitrary per-block update so that the control flow
and error behaviour can be verified for every such update. -/

/-- An RGB pixel buffer with explicit dimensions. -/
structure RgbImage where
  width : Nat
  height : Nat
  pixels : Nat → Nat → Nat × Nat × Nat

/-- `EmbeddingConfiguration` of `steganography.rs`, with `f32` fields as
rationals. -/
structure EmbeddingConfiguration where
  block_size : Nat
  embedding_positions : List (Nat × Nat)
  embedding_strength : ℚ
  minimum_quantization_step : ℚ

/-- `EmbeddingConfiguration::default()`. -/
def defaultConfiguration : EmbeddingConfiguration where
  block_size := 8
  embedding_positions := [(4, 1), (1, 4), (3, 2), (2, 3), (5, 0), (0, 5), (3, 4), (4, 3)]
  embedding_strength := 25
  minimum_quantization_step := 4

/-- `calculate_capacity_bits`: one bit per block,
`ceil(width/block_size) * ceil(height/block_size)` slots. -/
def calculate_capacity_bits (cfg : EmbeddingConfiguration) (img : RgbImage) : Nat :=
  let horizontal_blocks := (img.width + cfg.block_size - 1) / cfg.block_size
  let vertical_blocks := (img.height + cfg.block_size - 1) / cfg.block_size
  horizontal_blocks * vertical_blocks

/-- The `(block_y, block_x)` origins visited by the nested
`step_by(block_size)` loops, outer rows then inner columns. -/
def blockOrigins (bs w h : Nat) : List (Nat × Nat) :=
  (List.range ((h + bs - 1) / bs)).flatMap (fun j =>
    (List.range ((w + bs - 1) / bs)).map (fun i => (j * bs, i * bs)))

/-- The embedding loop body: visit blocks in raster order, embedding one
bit per block via the abstract per-block update `embed img block_x
block_y bit`, and stop as soon as all bits are written. -/
def embedLoopRgb (embed : RgbImage → Nat → Nat → Nat → RgbImage)
    (bit_stream : List Nat) :
    List (Nat × Nat) → RgbImage → Nat → RgbImage
  | [], img, _ => img
  | (coords :: rest), img, current_bit_index =>
    if bit_stream.length ≤ current_bit_index then img
    else embedLoopRgb embed bit_stream rest
      (embed img coords.2 coords.1 (bit_stream.getD current_bit_index 0))
      (current_bit_index + 1)

/-- `hide_data_in_rgb_image`: frame the data as a bitstream, fail with a
capacity error when it does not fit, otherwise run the embedding loop
over the block grid. -/
def hide_data_in_rgb_image (cfg : EmbeddingConfiguration)
    (embed : RgbImage → Nat → Nat → Nat → RgbImage)
    (source_image : RgbImage) (encrypted_data : List Nat) :
    Except SteganographyError RgbImage :=
  let bit_stream := convert_data_to_bits_with_header encrypted_data
  let available_capacity := calculate_capacity_bits cfg source_image
  if bit_stream.length > available_capacity then
    .error (.capacityError bit_stream.length available_capacity)
  else
    .ok (embedLoopRgb embed bit_stream
      (blockOrigins cfg.block_size source_image.width source_image.height)
      source_image 0)

/-! ## DCT-domain bit decisions (`embed_bit_robustly` and
`extract_bit_robustly`), over rational coefficient values. -/

/-- `embed_bit_robustly`: overwrite each of the first four configured
coefficient positions with `±strength`, where `strength` is the
configured strength raised to three quantization steps when needed. -/
def embed_bit_robustly (cfg : EmbeddingConfiguration)
    (dct_block : Nat → Nat → ℚ) (bit_value : Nat)
    (quantization_table : Nat → Nat → ℚ) : Nat → Nat → ℚ :=
  (cfg.embedding_positions.take (min 4 cfg.embedding_positions.length)).foldl
    (fun blk pc =>
      let quantization_step := max (quantization_table pc.1 pc.2) cfg.minimum_quantization_step
      let embedding_strength := max cfg.embedding_strength (quantization_step * 3)
      fun y x =>
        if y = pc.1 ∧ x = pc.2 then
          if bit_value = 1 then embedding_strength else -embedding_strength
        else blk y x)
    dct_block

/-- `extract_bit_robustly`: two-tier decision — majority vote with
thresholds `±10` over the first four configured positions, falling back
to the sign of the primary position's coefficient on a tie.  (Indexing
`embedding_positions[0]` is modelled with a `(0,0)` default; the source
presumes a non-empty position list.) -/
def extract_bit_robustly (cfg : EmbeddingConfiguration)
    (dct_block : Nat → Nat → ℚ) : Nat :=
  let positions_to_check := cfg.embedding_positions.take
    (min 4 cfg.embedding_positions.length)
  let votes := positions_to_check.foldl
    (fun (v : Nat × Nat) pc =>
      let coefficient_value := dct_block pc.1 pc.2
      if coefficient_value > 10 then (v.1 + 1, v.2)
      else if coefficient_value < -10 then (v.1, v.2 + 1)
      else v)
    (0, 0)
  if votes.1 > votes.2 then 1
  else if votes.2 > votes.1 then 0
  else
    let primary := cfg.embedding_positions.getD 0 (0, 0)
    if dct_block primary.1 primary.2 > 0 then 1 else 0

/-! ## Quantization model (`calculate_quantization_table`), over exact
rationals: only the clamping structure and the resulting bounds are in
scope, which are insensitive to `f32` rounding of the scale factor. -/

/-- The standard JPEG luminance quantization base table. -/
def jpegLuminanceQuantizationTable : List (List ℚ) :=
  [[16, 11, 10, 16, 24, 40, 51, 61],
   [12, 12, 14, 19, 26, 58, 60, 55],
   [14, 13, 16, 24, 40, 57, 69, 56],
   [14, 17, 22, 29, 51, 87, 80, 62],
   [18, 22, 37, 56, 68, 109, 103, 77],
   [24, 35, 55, 64, 81, 104, 113, 92],
   [49, 64, 78, 87, 103, 121, 120, 101],
   [72, 92, 95, 98, 112, 100, 103, 99]]

/-- `.floor().clamp(1.0, 255.0)` applied to a scaled entry. -/
def floorClamp (v : ℚ) : ℚ := ((max 1 (min 255 ⌊v⌋) : ℤ) : ℚ)

/-- `calculate_quantization_table`: clamp the quality into `[1, 100]`,
derive the scale factor, and clamp each scaled, floored entry into
`[1, 255]`. -/
def calculate_quantization_table (jpeg_quality : Nat) : Nat → Nat → ℚ :=
  let quality_factor : ℚ := (min (max jpeg_quality 1) 100 : Nat)
  let scaling_factor : ℚ :=
    if quality_factor < 50 then 5000 / quality_factor else 200 - 2 * quality_factor
  fun row_index column_index =>
    let base := (jpegLuminanceQuantizationTable.getD row_index []).getD column_index 0
    floorClamp ((base * scaling_factor + 50) / 100)

/-! ## Lemmas about the repetition code -/

theorem repetition_encoding_foldl (r : Nat) (d : List Nat) (acc : List Nat) :
    d.foldl (fun acc b => acc ++ List.replicate r b) acc
      = acc ++ d.flatMap (List.replicate r) := by
  induction d generalizing acc with
  | nil => simp
  | cons b rest ih => simp [ih, List.append_assoc]

theorem apply_repetition_encoding_eq (r : Nat) (d : List Nat) :
    apply_repetition_encoding r d
      = toLE4 (d.length % 2^32) ++ d.flatMap (List.replicate r) := by
  simp [apply_repetition_encoding, repetition_encoding_foldl]

theorem length_flatMap_replicate (r : Nat) (d : List Nat) :
    (d.flatMap (List.replicate r)).length = d.length * r := by
  induction d with
  | nil => simp
  | cons b rest ih => simp [ih, Nat.succ_mul, Nat.add_comm]

theorem apply_repetition_encoding_length (r : Nat) (d : List Nat) :
    (apply_repetition_encoding r d).length = 4 + d.length * r := by
  rw [apply_repetition_encoding_eq, List.length_append, length_flatMap_replicate]
  simp [toLE4]

theorem readLE4_toLE4_append (n : Nat) (rest : List Nat) :
    readLE4 (toLE4 n ++ rest) = n % 2^32 := by
  simp only [toLE4, readLE4, List.cons_append, List.nil_append,
    List.getD_cons_zero, List.getD_cons_succ]
  omega

/-- Behaviour of the `max_by_key`-style fold: the result is an element of
the scanned list (or the start value), its key is maximal, and among
equal keys it is the value scanned last — for a strictly increasing scan
list, the largest such value. -/
theorem foldWinner_spec (c : Nat → Nat) (l : List Nat) (b : Nat)
    (hl : l.Pairwise (· < ·)) (hb : ∀ x ∈ l, b ≤ x) :
    (l.foldl (fun best v => if c best ≤ c v then v else best) b = b ∨
       l.foldl (fun best v => if c best ≤ c v then v else best) b ∈ l) ∧
    c b ≤ c (l.foldl (fun best v => if c best ≤ c v then v else best) b) ∧
    (∀ x ∈ l, c x ≤ c (l.foldl (fun best v => if c best ≤ c v then v else best) b)) ∧
    (∀ x ∈ l, c x = c (l.foldl (fun best v => if c best ≤ c v then v else best) b) →
       x ≤ l.foldl (fun best v => if c best ≤ c v then v else best) b) := by
  induction l generalizing b with
  | nil => simp
  | cons v rest ih =>
    have hpair := (List.pairwise_cons.mp hl).1
    have hrest := (List.pairwise_cons.mp hl).2
    by_cases hcv : c b ≤ c v
    · have hb' : ∀ x ∈ rest, v ≤ x := fun x hx => le_of_lt (hpair x hx)
      have IH := ih v hrest hb'
      simp only [List.foldl_cons, if_pos hcv]
      refine ⟨?_, ?_, ?_, ?_⟩
      · rcases IH.1 with h | h
        · exact Or.inr (by simp [h])
        · exact Or.inr (List.mem_cons_of_mem _ h)
      · exact le_trans hcv IH.2.1
      · intro x hx
        rcases List.mem_cons.mp hx with rfl | hx
        · exact IH.2.1
        · exact IH.2.2.1 x hx
      · intro x hx hcx
        rcases List.mem_cons.mp hx with rfl | hx
        · rcases IH.1 with h | h
          · exact le_of_eq h.symm
          · exact le_of_lt (hpair _ h)
        · exact IH.2.2.2 x hx hcx
    · have hb' : ∀ x ∈ rest, b ≤ x := fun x hx => hb x (List.mem_cons_of_mem _ hx)
      have IH := ih b hrest hb'
      simp only [List.foldl_cons, if_neg hcv]
      refine ⟨?_, ?_, ?_, ?_⟩
      · rcases IH.1 with h | h
        · exact Or.inl h
        · exact Or.inr (List.mem_cons_of_mem _ h)
      · exact IH.2.1
      · intro x hx
        rcases List.mem_cons.mp hx with rfl | hx
        · exact le_trans (le_of_lt (Nat.lt_of_not_le hcv)) IH.2.1
        · exact IH.2.2.1 x hx
      · intro x hx hcx
        rcases List.mem_cons.mp hx with rfl | hx
        · exfalso
          have : c x < c b := Nat.lt_of_not_le hcv
          have := IH.2.1
          omega
        · exact IH.2.2.2 x hx hcx

theorem voteWinner_lt_256 (c : Nat → Nat) : voteWinner c < 256 := by
  have h := foldWinner_spec c (List.range 256) 0 (List.pairwise_lt_range 256)
    (fun x _ => Nat.zero_le x)
  rcases h.1 with h0 | hmem
  · rw [voteWinner, h0]; omega
  · exact List.mem_range.mp hmem

theorem voteWinner_maximal (c : Nat → Nat) (v : Nat) (hv : v < 256) :
    c v ≤ c (voteWinner c) := by
  have h := foldWinner_spec c (List.range 256) 0 (List.pairwise_lt_range 256)
    (fun x _ => Nat.zero_le x)
  exact h.2.2.1 v (List.mem_range.mpr hv)

theorem voteWinner_highest_tie (c : Nat → Nat) (v : Nat) (hv : v < 256)
    (htie : c v = c (voteWinner c)) : v ≤ voteWinner c := by
  have h := foldWinner_spec c (List.range 256) 0 (List.pairwise_lt_range 256)
    (fun x _ => Nat.zero_le x)
  exact h.2.2.2 v (List.mem_range.mpr hv) htie

/-- If some value `t < 256` has a strictly larger vote count than every
other value, the fold picks `t`. -/
theorem voteWinner_of_majority (c : Nat → Nat) (t : Nat) (ht : t < 256)
    (hmaj : ∀ v, v ≠ t → c v < c t) : voteWinner c = t := by
  by_contra hne
  have h1 := voteWinner_maximal c t ht
  have h2 := hmaj (voteWinner c) hne
  omega

/-- The majority-vote loop succeeds and produces the per-position
winners once its whole range is in bounds. -/
theorem repDecodeLoop_ok (r : Nat) (encoded : List Nat) :
    ∀ (k i : Nat), 4 + (i + k) * r ≤ encoded.length →
      repDecodeLoop r encoded k i
        = .ok ((List.range k).map (fun j =>
            voteWinner (voteCount ((encoded.drop (4 + (i + j) * r)).take r)))) := by
  intro k
  induction k with
  | zero => intro i _; simp [repDecodeLoop]
  | succ k ih =>
    intro i hlen
    have hend : ¬ encoded.length < 4 + i * r + r := by
      have : (i + 1) * r ≤ (i + (k + 1)) * r := Nat.mul_le_mul_right r (by omega)
      have h1 : 4 + (i + 1) * r ≤ encoded.length := by omega
      have : i * r + r = (i + 1) * r := by ring
      omega
    have hrec : 4 + (i + 1 + k) * r ≤ encoded.length := by
      have : (i + 1 + k) * r = (i + (k + 1)) * r := by ring
      omega
    rw [repDecodeLoop, if_neg hend, ih (i + 1) hrec]
    simp only [List.range_succ_eq_map, List.map_cons, List.map_map, Nat.add_zero]
    refine congrArg Except.ok (congrArg₂ List.cons rfl ?_)
    apply List.map_congr_left
    intro j _
    simp only [Function.comp_apply]
    rw [show i + 1 + j = i + (j + 1) by omega]

/-- In a slice of length `r` in which fewer than half the entries differ
from `t`, the occurrence count of `t` strictly exceeds that of any other
value. -/
theorem count_majority (slice : List Nat) (t v : Nat) (r : Nat)
    (hlen : slice.length = r)
    (hne : 2 * slice.countP (fun b => b ≠ t) < r) (hv : v ≠ t) :
    slice.count v < slice.count t := by
  have hsplit := List.length_eq_countP_add_countP (fun b => b == t) slice
  have hconv : slice.countP (fun a => decide ¬((a == t) = true))
      = slice.countP (fun b => b ≠ t) := by
    apply List.countP_congr
    intro x _
    simp
  have hcv : slice.count v ≤ slice.countP (fun b => b ≠ t) := by
    rw [List.count_eq_countP]
    apply List.countP_mono_left
    intro x _ hx
    simp only [beq_iff_eq] at hx
    simp [hx, hv]
  have hct : slice.count t = slice.countP (fun b => b == t) := List.count_eq_countP t slice
  omega

/-- Majority-vote repetition decoding recovers `d` from any blob whose
header is the intact 4-byte encoding of `d.length`, whose length is that
of the true encoding, and in which fewer than half of each byte's `r`
repeats were altered.  Requires `d.length < 2^32` (the header is 32-bit)
and `r < 2^32` (the vote counters are 32-bit). -/
theorem apply_repetition_decoding_majority (r : Nat) (d blob : List Nat)
    (hr32 : r < 2^32) (hn : d.length < 2^32)
    (hd : ∀ b ∈ d, b < 256)
    (hlen : blob.length = 4 + d.length * r)
    (hhead : blob.take 4 = toLE4 (d.length % 2^32))
    (hcorr : ∀ i, i < d.length →
      2 * ((blob.drop (4 + i * r)).take r).countP (fun b => b ≠ d.getD i 0) < r) :
    apply_repetition_decoding r blob = .ok d := by
  have h4 : ¬ blob.length < 4 := by omega
  have hblob : blob = toLE4 (d.length % 2^32) ++ blob.drop 4 := by
    rw [← hhead]
    exact (List.take_append_drop 4 blob).symm
  have hread : readLE4 blob = d.length := by
    conv_lhs => rw [hblob]
    rw [readLE4_toLE4_append]
    omega
  have hexp : ¬ blob.length ≠ 4 + d.length * r := by omega
  simp only [apply_repetition_decoding, if_neg h4, hread, if_neg hexp]
  rw [repDecodeLoop_ok r blob d.length 0 (by simp [Nat.zero_add, hlen])]
  refine congrArg Except.ok ?_
  apply List.ext_getElem
  · simp
  · intro i h1 h2
    simp only [List.getElem_map, List.getElem_range, Nat.zero_add]
    have hi : i < d.length := by simpa using h2
    have hir : i * r + r ≤ d.length * r := by
      have h := Nat.mul_le_mul_right r (show i + 1 ≤ d.length by omega)
      have h' : (i + 1) * r = i * r + r := by ring
      omega
    have hslice : ((blob.drop (4 + i * r)).take r).length = r := by
      simp only [List.length_take, List.length_drop, hlen]
      omega
    apply voteWinner_of_majority
    · exact hd _ (List.getElem_mem h2)
    · intro v hv
      have hgd : d.getD i 0 = d[i] := List.getD_eq_getElem d 0 h2
      have hmaj := count_majority ((blob.drop (4 + i * r)).take r) d[i] v r hslice
        (by have := hcorr i hi; rw [hgd] at this; exact this) hv
      have hc1 : ((blob.drop (4 + i * r)).take r).count v ≤ r := by
        have := List.count_le_length v ((blob.drop (4 + i * r)).take r)
        omega
      have hc2 : ((blob.drop (4 + i * r)).take r).count d[i] ≤ r := by
        have := List.count_le_length d[i] ((blob.drop (4 + i * r)).take r)
        omega
      simp only [voteCount]
      rw [Nat.mod_eq_of_lt (by omega), Nat.mod_eq_of_lt (by omega)]
      exact hmaj

/-! ## Lemmas about the bit framer -/

theorem two_mul_lor_eq_add (a b : Nat) (hb : b < 2) : (2 * a) ||| b = 2 * a + b := by
  interval_cases b
  · simp
  · apply Nat.eq_of_testBit_eq
    intro i
    cases i with
    | zero => simp [Nat.testBit_zero, Nat.mul_add_mod, Nat.mul_mod_right]
    | succ i =>
      have h1 : 2 * a / 2 = a := by omega
      have h2 : (2 * a + 1) / 2 = a := by omega
      rw [Nat.testBit_lor, Nat.testBit_succ, Nat.testBit_succ, Nat.testBit_succ, h1, h2]
      norm_num

theorem bitsBE_succ (w n : Nat) : bitsBE (w+1) n = ((n >>> w) &&& 1) :: bitsBE w n := rfl

theorem bitsBE_length (w n : Nat) : (bitsBE w n).length = w := by
  induction w with
  | zero => rfl
  | succ w ih => simp [bitsBE_succ, ih]

/-- Folding the `(acc << 1) | bit` step (reduced modulo `2^m`) over the
big-endian bit expansion of `n` reconstructs `n`'s low `w` bits, as long
as the accumulator stays below the modulus. -/
theorem foldl_parse_bitsBE (m : Nat) : ∀ (w n acc : Nat), w ≤ m → acc < 2^(m - w) →
    (bitsBE w n).foldl (fun a b => ((a <<< 1) ||| b) % 2^m) acc
      = acc * 2^w + n % 2^w := by
  intro w
  induction w with
  | zero =>
    intro n acc _ _
    simp [bitsBE, Nat.mod_one]
  | succ w ih =>
    intro n acc hw hacc
    rw [bitsBE_succ, List.foldl_cons]
    have hbit : (n >>> w) &&& 1 = n / 2^w % 2 := by
      rw [Nat.shiftRight_eq_div_pow, Nat.and_one_is_mod]
    have hb2 : n / 2^w % 2 < 2 := Nat.mod_lt _ (by norm_num)
    have hpow : 2^(m - (w+1)) * 2 ≤ 2^(m - w) := by
      rw [← pow_succ]
      exact Nat.pow_le_pow_right (by norm_num) (by omega)
    have hpow2 : (2:Nat)^(m - w) ≤ 2^m := Nat.pow_le_pow_right (by norm_num) (by omega)
    have hstep : ((acc <<< 1) ||| ((n >>> w) &&& 1)) % 2^m = 2 * acc + n / 2^w % 2 := by
      rw [Nat.shiftLeft_eq, hbit, show acc * 2^1 = 2 * acc by ring,
        two_mul_lor_eq_add _ _ hb2]
      exact Nat.mod_eq_of_lt (by omega)
    rw [hstep, ih n (2 * acc + n / 2^w % 2) (by omega) (by omega)]
    have hmod : n % 2^(w+1) = n % 2^w + 2^w * (n / 2^w % 2) := Nat.mod_pow_succ
    rw [hmod]
    ring

theorem parse_header_bitsBE (n : Nat) :
    (bitsBE 32 n).foldl headerStep 0 = n % 2^32 := by
  have h := foldl_parse_bitsBE 32 32 n 0 (le_refl 32) (by norm_num)
  simpa [headerStep] using h

theorem parse_byte_bitsBE (n : Nat) :
    (bitsBE 8 n).foldl byteStep 0 = n % 2^8 := by
  have h := foldl_parse_bitsBE 8 8 n 0 (le_refl 8) (by norm_num)
  simpa [byteStep] using h

/-- Length of `flatMap` by a constant-length function. -/
theorem length_flatMap_const {α : Type} (f : α → List Nat) (c : Nat) (l : List α)
    (h : ∀ a ∈ l, (f a).length = c) : (l.flatMap f).length = c * l.length := by
  induction l with
  | nil => simp
  | cons a rest ih =>
    rw [List.flatMap_cons, List.length_append, h a (List.mem_cons_self a rest),
      ih (fun x hx => h x (List.mem_cons_of_mem a hx))]
    simp [List.length_cons]
    ring

theorem convert_data_to_bits_with_header_length (data : List Nat) :
    (convert_data_to_bits_with_header data).length = 32 + data.length * 8 := by
  rw [convert_data_to_bits_with_header, List.length_append, bitsBE_length,
    length_flatMap_const (fun b => bitsBE 8 b) 8 data (fun a _ => bitsBE_length 8 a)]
  ring

theorem bytesFromBits_cons (x : Nat) (xs : List Nat) :
    bytesFromBits (x :: xs)
      = ((x :: xs).take 8).foldl byteStep 0 :: bytesFromBits ((x :: xs).drop 8) := by
  rw [bytesFromBits]

theorem bytesFromBits_flatMap (p : List Nat) (hp : ∀ b ∈ p, b < 256) :
    bytesFromBits (p.flatMap (fun b => bitsBE 8 b)) = p := by
  induction p with
  | nil => simp [bytesFromBits]
  | cons b rest ih =>
    have h8 : (bitsBE 8 b).length = 8 := bitsBE_length 8 b
    have hcons : bitsBE 8 b ++ rest.flatMap (fun b => bitsBE 8 b)
        = ((b >>> 7) &&& 1) :: (bitsBE 7 b ++ rest.flatMap (fun b => bitsBE 8 b)) := by
      rw [bitsBE_succ 7 b, List.cons_append]
    rw [List.flatMap_cons, hcons, bytesFromBits_cons, ← hcons,
      List.take_left' h8, List.drop_left' h8, parse_byte_bitsBE,
      Nat.mod_eq_of_lt (show b < 2^8 by have := hp b (List.mem_cons_self b rest); omega),
      ih (fun x hx => hp x (List.mem_cons_of_mem b hx))]

/-! ## Claim C2: bit-framer round trip -/

/-- C2 (amended): for every byte payload of fewer than `2^32` bytes,
converting to the header-framed bitstream and back yields exactly the
original payload.  (The 32-bit length header wraps for longer
payloads.) -/
theorem convert_bits_roundtrip (p : List Nat) (hp : ∀ b ∈ p, b < 256)
    (hlen : p.length < 2^32) :
    convert_bits_to_data_with_header (convert_data_to_bits_with_header p) = .ok p := by
  have hm : p.length % 2^32 = p.length := Nat.mod_eq_of_lt hlen
  have h32 : (bitsBE 32 (p.length % 2^32)).length = 32 := bitsBE_length _ _
  have hslen := convert_data_to_bits_with_header_length p
  have hnot : ¬ (convert_data_to_bits_with_header p).length < 32 := by omega
  have htake : (convert_data_to_bits_with_header p).take 32
      = bitsBE 32 (p.length % 2^32) := by
    rw [convert_data_to_bits_with_header]
    exact List.take_left' h32
  have hdrop : (convert_data_to_bits_with_header p).drop 32
      = p.flatMap (fun b => bitsBE 8 b) := by
    rw [convert_data_to_bits_with_header]
    exact List.drop_left' h32
  have hflen : (p.flatMap (fun b => bitsBE 8 b)).length = p.length * 8 := by
    rw [length_flatMap_const (fun b => bitsBE 8 b) 8 p (fun a _ => bitsBE_length 8 a)]
    ring
  simp only [convert_bits_to_data_with_header, hnot, if_false, htake, hdrop,
    parse_header_bitsBE, hm, hflen, lt_irrefl]
  rw [show (p.flatMap (fun b => bitsBE 8 b)).take (p.length * 8)
        = p.flatMap (fun b => bitsBE 8 b) from by
      rw [← hflen]; exact List.take_length _]
  rw [bytesFromBits_flatMap p hp]

/-- C2 witness at a concrete payload. -/
theorem convert_bits_roundtrip_witness :
    convert_bits_to_data_with_header
        (convert_data_to_bits_with_header [72, 101, 108, 108, 111])
      = .ok [72, 101, 108, 108, 111] :=
  convert_bits_roundtrip [72, 101, 108, 108, 111] (by decide) (by norm_num)

/-- For any payload whose length is a nonzero multiple of `2^32`, the
`as u32` header cast wraps to 0 and the round trip returns `.ok []`. -/
theorem convert_bits_roundtrip_wrap (p : List Nat) (hm : p.length % 2^32 = 0) :
    convert_bits_to_data_with_header (convert_data_to_bits_with_header p) = .ok [] := by
  have h32 : (bitsBE 32 (p.length % 2^32)).length = 32 := bitsBE_length _ _
  have hslen := convert_data_to_bits_with_header_length p
  have hnot : ¬ (convert_data_to_bits_with_header p).length < 32 := by omega
  have htake : (convert_data_to_bits_with_header p).take 32
      = bitsBE 32 (p.length % 2^32) := by
    rw [convert_data_to_bits_with_header]
    exact List.take_left' h32
  simp only [convert_bits_to_data_with_header, hnot, if_false, htake,
    parse_header_bitsBE, hm, Nat.zero_mod, Nat.zero_mul, List.take_zero,
    Nat.not_lt_zero, bytesFromBits]

/-- C2 counterexample: for a payload of `2^32` zero bytes the `as u32`
length cast wraps to 0, so the round trip returns `.ok []`, not the
original payload. -/
theorem convert_bits_header_wrap_counterexample :
    convert_bits_to_data_with_header
        (convert_data_to_bits_with_header (List.replicate (2^32) 0))
      ≠ .ok (List.replicate (2^32) 0) := by
  have h1 := convert_bits_roundtrip_wrap (List.replicate (2^32) 0)
    (by rw [List.length_replicate]; exact Nat.mod_self _)
  rw [h1]
  intro h
  have h2 : ([] : List Nat) = List.replicate (2^32) 0 := Except.ok.inj h
  have h3 : (2:Nat)^32 = 0 := (List.replicate_eq_nil_iff 0).mp h2.symm
  norm_num at h3

/-! ## Claim C5: repetition-encoded blob layout -/

/-- C5: the repetition-encoded blob is the 4-byte little-endian encoding
of the input length followed by `repetition_factor` contiguous copies of
each input byte in order, and its total length is
`4 + length * repetition_factor`. -/
theorem repetition_encoded_blob_layout (r : Nat) (d : List Nat) :
    apply_repetition_encoding r d
      = [d.length % 2^8, d.length / 2^8 % 2^8, d.length / 2^16 % 2^8,
          d.length / 2^24 % 2^8]
        ++ d.flatMap (fun b => List.replicate r b) ∧
    (apply_repetition_encoding r d).length = 4 + d.length * r := by
  refine ⟨?_, apply_repetition_encoding_length r d⟩
  rw [apply_repetition_encoding_eq]
  have hh : toLE4 (d.length % 2^32)
      = [d.length % 2^8, d.length / 2^8 % 2^8, d.length / 2^16 % 2^8,
          d.length / 2^24 % 2^8] := by
    simp only [toLE4, List.cons.injEq, and_true]
    refine ⟨by omega, by omega, by omega, by omega⟩
  rw [hh]

/-- The concrete tied vote `[1, 2]`: the scan keeps the later (larger)
candidate, so the winner is 2. -/
theorem voteWinner_tie_pair : voteWinner (voteCount [1, 2]) = 2 := by
  have h2 : voteCount [1, 2] 2 = 1 := by decide
  have hmax := voteWinner_maximal (voteCount [1, 2]) 2 (by norm_num)
  rw [h2] at hmax
  have hle : ([1, 2] : List Nat).count (voteWinner (voteCount [1, 2])) ≤ 2 :=
    List.count_le_length _ _
  have hcv : voteCount [1, 2] (voteWinner (voteCount [1, 2]))
      = ([1, 2] : List Nat).count (voteWinner (voteCount [1, 2])) := by
    simp only [voteCount]
    exact Nat.mod_eq_of_lt (by omega)
  have hmem : voteWinner (voteCount [1, 2]) ∈ ([1, 2] : List Nat) :=
    List.count_pos_iff.mp (by omega)
  rcases List.mem_cons.mp hmem with h1 | hmem2
  · exfalso
    have hcW : voteCount [1, 2] (voteWinner (voteCount [1, 2])) = 1 := by
      rw [h1]; decide
    have htie := voteWinner_highest_tie (voteCount [1, 2]) 2 (by norm_num)
      (h2.trans hcW.symm)
    omega
  · simpa using hmem2

/-- Concrete evaluation of the tied decode, assembled without reducing
the 256-candidate scan in the kernel. -/
theorem decode_tie_example :
    apply_repetition_decoding 2 [1, 0, 0, 0, 1, 2] = .ok [2] := by
  have hloop : repDecodeLoop 2 [1, 0, 0, 0, 1, 2] 1 0
      = .ok [voteWinner (voteCount [1, 2])] := by
    rw [repDecodeLoop]
    norm_num
    rw [repDecodeLoop]
  have hread : readLE4 [1, 0, 0, 0, 1, 2] = 1 := by decide
  simp only [apply_repetition_decoding, hread]
  norm_num
  rw [hloop, voteWinner_tie_pair]

/-! ## Claim C6: majority vote tie-breaking -/

/-- C6 counterexample: with repetition factor 2 and one byte position
whose repeats are `[1, 2]` (counts tied at one each), decoding emits 2
— the highest tied byte value, because Rust's `max_by_key` keeps the
last maximal element — not the lowest value 1 as claimed. -/
theorem repetition_tie_break_counterexample :
    apply_repetition_decoding 2 [1, 0, 0, 0, 1, 2] = .ok [2] ∧
    ([1, 2] : List Nat).count 1 = ([1, 2] : List Nat).count 2 ∧
    apply_repetition_decoding 2 [1, 0, 0, 0, 1, 2] ≠ .ok [1] := by
  refine ⟨decode_tie_example, rfl, ?_⟩
  intro h
  rw [decode_tie_example] at h
  exact absurd (Except.ok.inj h) (by decide)

/-- C6 (amended): whenever repetition decoding succeeds, each output
byte is a value with the maximal occurrence count among that position's
`repetition_factor` repeats, and on ties it is the **highest** such byte
value (Rust's `max_by_key` keeps the last maximal element of the
ascending scan).  `r < 2^32` keeps the `u32` vote counters exact. -/
theorem repetition_decoding_majority_tie_high (r : Nat) (blob out : List Nat)
    (hr32 : r < 2^32)
    (hok : apply_repetition_decoding r blob = .ok out) :
    out.length = readLE4 blob ∧
    ∀ i, i < out.length →
      (∀ v, v < 256 →
        ((blob.drop (4 + i * r)).take r).count v
          ≤ ((blob.drop (4 + i * r)).take r).count (out.getD i 0)) ∧
      (∀ v, v < 256 →
        ((blob.drop (4 + i * r)).take r).count v
            = ((blob.drop (4 + i * r)).take r).count (out.getD i 0) →
        v ≤ out.getD i 0) := by
  by_cases h4 : blob.length < 4
  · simp [apply_repetition_decoding, h4] at hok
  rcases eq_or_ne blob.length (4 + readLE4 blob * r) with heq | hne
  · simp only [apply_repetition_decoding, if_neg h4, if_neg (by omega : ¬ blob.length ≠ 4 + readLE4 blob * r)] at hok
    rw [repDecodeLoop_ok r blob (readLE4 blob) 0 (by rw [Nat.zero_add]; omega)] at hok
    have hout := Except.ok.inj hok
    have hlen : out.length = readLE4 blob := by
      rw [← hout, List.length_map, List.length_range]
    refine ⟨hlen, ?_⟩
    intro i hi
    have hi' : i < readLE4 blob := by omega
    have hgd : out.getD i 0
        = voteWinner (voteCount ((blob.drop (4 + i * r)).take r)) := by
      rw [← hout]
      rw [List.getD_eq_getElem _ 0 (by simp [hi'])]
      simp only [List.getElem_map, List.getElem_range, Nat.zero_add]
    have hslice : ((blob.drop (4 + i * r)).take r).length ≤ r := by
      simp only [List.length_take, List.length_drop]
      omega
    constructor
    · intro v hv
      have h := voteWinner_maximal (voteCount ((blob.drop (4 + i * r)).take r)) v hv
      rw [← hgd] at h
      have hc1 := List.count_le_length v ((blob.drop (4 + i * r)).take r)
      have hc2 := List.count_le_length (out.getD i 0) ((blob.drop (4 + i * r)).take r)
      simp only [voteCount] at h
      rw [Nat.mod_eq_of_lt (by omega), Nat.mod_eq_of_lt (by omega)] at h
      exact h
    · intro v hv hcount
      have hc1 := List.count_le_length v ((blob.drop (4 + i * r)).take r)
      have hc2 := List.count_le_length (out.getD i 0) ((blob.drop (4 + i * r)).take r)
      have h := voteWinner_highest_tie (voteCount ((blob.drop (4 + i * r)).take r)) v hv
        (by
          rw [← hgd]
          simp only [voteCount]
          rw [Nat.mod_eq_of_lt (by omega), Nat.mod_eq_of_lt (by omega)]
          exact hcount)
      rw [← hgd] at h
      exact h
  · simp [apply_repetition_decoding, h4, hne] at hok

/-- C6 witness: the amended theorem applied at the concrete tied blob. -/
theorem repetition_decoding_majority_tie_high_witness :
    ([2] : List Nat).length = readLE4 [1, 0, 0, 0, 1, 2] ∧
    ∀ i, i < ([2] : List Nat).length →
      (∀ v, v < 256 →
        (([1, 0, 0, 0, 1, 2].drop (4 + i * 2)).take 2).count v
          ≤ (([1, 0, 0, 0, 1, 2].drop (4 + i * 2)).take 2).count
              (([2] : List Nat).getD i 0)) ∧
      (∀ v, v < 256 →
        (([1, 0, 0, 0, 1, 2].drop (4 + i * 2)).take 2).count v
            = (([1, 0, 0, 0, 1, 2].drop (4 + i * 2)).take 2).count
                (([2] : List Nat).getD i 0) →
        v ≤ ([2] : List Nat).getD i 0) :=
  repetition_decoding_majority_tie_high 2 [1, 0, 0, 0, 1, 2] [2] (by norm_num)
    decode_tie_example

/-! ## Claim C3: error tolerance of the repetition code -/

/-- C3 (amended): majority-vote repetition decoding still returns the
original data when, for each byte position, at most
`floor((r-1)/2)` of its `r` repeats are altered (expressed as
`2 * altered < r`) and the 4-byte header is untouched — provided the
data is shorter than `2^32` bytes and `r < 2^32` (header and vote
counters are 32-bit). -/
theorem repetition_decoding_corrects_errors (r : Nat) (d blob : List Nat)
    (hr32 : r < 2^32) (hn : d.length < 2^32) (hd : ∀ b ∈ d, b < 256)
    (hlen : blob.length = (apply_repetition_encoding r d).length)
    (hhead : blob.take 4 = (apply_repetition_encoding r d).take 4)
    (hcorr : ∀ i, i < d.length →
      2 * ((blob.drop (4 + i * r)).take r).countP (fun b => b ≠ d.getD i 0) < r) :
    apply_repetition_decoding r blob = .ok d := by
  apply apply_repetition_decoding_majority r d blob hr32 hn hd
  · rw [hlen, apply_repetition_encoding_length]
  · rw [hhead, apply_repetition_encoding_eq]
    exact List.take_left' (by simp [toLE4])
  · exact hcorr

/-- C3 witness: repetition factor 3 with one corrupted repeat in each of
two byte positions (the `crypto.rs` unit test's scenario). -/
theorem repetition_decoding_corrects_errors_witness :
    apply_repetition_decoding 3
        [3, 0, 0, 0, 66, 66, 255, 115, 0, 115, 165, 165, 165]
      = .ok [66, 115, 165] :=
  repetition_decoding_corrects_errors 3 [66, 115, 165]
    [3, 0, 0, 0, 66, 66, 255, 115, 0, 115, 165, 165, 165]
    (by norm_num) (by norm_num) (by decide) (by decide) (by decide) (by decide)

/-- For a payload whose length is a nonzero multiple of `2^32`, the
length header wraps and decoding rejects even the uncorrupted blob. -/
theorem repetition_decoding_wrap (r : Nat) (d : List Nat)
    (hm : d.length % 2^32 = 0) (hne : d.length * r ≠ 0) :
    apply_repetition_decoding r (apply_repetition_encoding r d)
      = .error (.invalidInput "Invalid encoded data length") := by
  have hlen := apply_repetition_encoding_length r d
  have h4 : ¬ (apply_repetition_encoding r d).length < 4 := by omega
  have hread : readLE4 (apply_repetition_encoding r d) = 0 := by
    rw [apply_repetition_encoding_eq, hm, readLE4_toLE4_append]
    exact Nat.zero_mod _
  simp only [apply_repetition_decoding, if_neg h4, hread]
  rw [if_pos (by omega : (apply_repetition_encoding r d).length ≠ 4 + 0 * r)]

/-- C3 counterexample: a data blob of `2^32` bytes with **zero**
corrupted repeats is nevertheless rejected, because the 32-bit length
header wraps to 0. -/
theorem repetition_wrap_counterexample :
    apply_repetition_decoding 5 (apply_repetition_encoding 5 (List.replicate (2^32) 0))
      ≠ .ok (List.replicate (2^32) 0) := by
  rw [repetition_decoding_wrap 5 (List.replicate (2^32) 0)
    (by rw [List.length_replicate]; exact Nat.mod_self _)
    (by rw [List.length_replicate]; norm_num)]
  intro h
  exact Except.noConfusion h

/-! ## Lemmas about the cipher layer -/

theorem quarterRound_length (st : List Nat) (a b c d : Nat) :
    (quarterRound st a b c d).length = st.length := by
  simp [quarterRound, List.length_set]

theorem chachaDoubleRound_length (st : List Nat) :
    (chachaDoubleRound st).length = st.length := by
  simp [chachaDoubleRound, quarterRound_length]

theorem iterate_chachaDoubleRound_length (n : Nat) :
    ∀ st : List Nat, (chachaDoubleRound^[n] st).length = st.length := by
  induction n with
  | zero => intro st; rfl
  | succ n ih =>
    intro st
    rw [Function.iterate_succ_apply, ih, chachaDoubleRound_length]

theorem chachaRounds_length (st : List Nat) :
    (chachaRounds st).length = st.length :=
  iterate_chachaDoubleRound_length 10 st

theorem leWords_length : ∀ l : List Nat, (leWords l).length = l.length / 4
  | [] => by simp [leWords]
  | [_] => by simp [leWords]
  | [_, _] => by simp [leWords]
  | [_, _, _] => by simp [leWords]
  | (_ :: _ :: _ :: _ :: rest) => by
    rw [leWords]
    simp only [List.length_cons]
    rw [leWords_length rest]
    omega

theorem chachaInit_length (key nonce : List Nat) (c : Nat)
    (hk : key.length = 32) (hn : nonce.length = 12) :
    (chachaInit key nonce c).length = 16 := by
  simp [chachaInit, leWords_length, hk, hn]

theorem toLE4_lt (w : Nat) : ∀ b ∈ toLE4 w, b < 256 := by
  intro b hb
  simp only [toLE4, List.mem_cons, List.not_mem_nil, or_false] at hb
  rcases hb with rfl | rfl | rfl | rfl <;> omega

theorem chachaBlock_length (key nonce : List Nat) (c : Nat)
    (hk : key.length = 32) (hn : nonce.length = 12) :
    (chachaBlock key nonce c).length = 64 := by
  rw [chachaBlock,
    length_flatMap_const toLE4 4 _ (fun a _ => by simp [toLE4]),
    List.length_zipWith, chachaRounds_length, chachaInit_length key nonce c hk hn]
  norm_num

theorem chachaKeystream_length (key nonce : List Nat) (n : Nat)
    (hk : key.length = 32) (hn : nonce.length = 12) :
    (chachaKeystream key nonce n).length = n := by
  rw [chachaKeystream, List.length_take,
    length_flatMap_const (chachaBlock key nonce) 64 _
      (fun a _ => chachaBlock_length key nonce a hk hn),
    List.length_range]
  have h : n ≤ 64 * ((n + 63) / 64) := by omega
  exact Nat.min_eq_left h

theorem chachaKeystream_lt (key nonce : List Nat) (n : Nat) :
    ∀ b ∈ chachaKeystream key nonce n, b < 256 := by
  intro b hb
  rw [chachaKeystream] at hb
  have hb2 : b ∈ (List.range ((n + 63) / 64)).flatMap (chachaBlock key nonce) :=
    List.IsPrefix.mem hb (List.take_prefix _ _)
  rcases List.mem_flatMap.mp hb2 with ⟨c, _, hbc⟩
  rw [chachaBlock] at hbc
  rcases List.mem_flatMap.mp hbc with ⟨w, _, hbw⟩
  exact toLE4_lt w b hbw

theorem apply_keystream_length (key nonce data : List Nat)
    (hk : key.length = 32) (hn : nonce.length = 12) :
    (apply_keystream key nonce data).length = data.length := by
  rw [apply_keystream, List.length_zipWith,
    chachaKeystream_length key nonce _ hk hn]
  exact min_self _

theorem zipWith_xor_lt : ∀ (d k : List Nat), (∀ b ∈ d, b < 256) →
    (∀ b ∈ k, b < 256) →
    ∀ b ∈ List.zipWith (fun a b => a ^^^ b) d k, b < 256 := by
  intro d
  induction d with
  | nil => intro k _ _ b hb; simp at hb
  | cons x xs ih =>
    intro k hd hk b hb
    cases k with
    | nil => simp at hb
    | cons y ys =>
      rw [List.zipWith_cons_cons] at hb
      rcases List.mem_cons.mp hb with rfl | hb2
      · have h1 : x < 2^8 := by
          have := hd x (List.mem_cons_self x xs); omega
        have h2 : y < 2^8 := by
          have := hk y (List.mem_cons_self y ys); omega
        have := Nat.xor_lt_two_pow h1 h2
        omega
      · exact ih ys (fun a ha => hd a (List.mem_cons_of_mem x ha))
          (fun a ha => hk a (List.mem_cons_of_mem y ha)) b hb2

theorem zipWith_xor_cancel : ∀ (d k : List Nat), d.length ≤ k.length →
    List.zipWith (fun a b => a ^^^ b) (List.zipWith (fun a b => a ^^^ b) d k) k
      = d := by
  intro d
  induction d with
  | nil => intro k _; simp
  | cons x xs ih =>
    intro k hlen
    cases k with
    | nil => simp at hlen
    | cons y ys =>
      simp only [List.zipWith_cons_cons]
      rw [ih ys (by simpa using hlen)]
      rw [Nat.xor_cancel_right]

theorem flatMap_replicate_slice (r : Nat) : ∀ (d : List Nat) (i : Nat),
    i < d.length →
    ((d.flatMap (List.replicate r)).drop (i * r)).take r
      = List.replicate r (d.getD i 0) := by
  intro d
  induction d with
  | nil => intro i hi; simp at hi
  | cons b rest ih =>
    intro i hi
    cases i with
    | zero =>
      simp only [Nat.zero_mul, List.drop_zero, List.flatMap_cons, List.getD_cons_zero]
      exact List.take_left' (List.length_replicate r b)
    | succ i =>
      rw [List.flatMap_cons, List.getD_cons_succ]
      have hmul : (i + 1) * r = i * r + r := by ring
      have hdrop : ((List.replicate r b ++ rest.flatMap (List.replicate r))).drop ((i+1) * r)
          = (rest.flatMap (List.replicate r)).drop (i * r) := by
        rw [List.drop_append_eq_append_drop,
          List.drop_eq_nil_of_le (by rw [List.length_replicate]; omega),
          List.nil_append, List.length_replicate]
        congr 1
        omega
      rw [hdrop]
      exact ih i (by simpa using hi)

/-! ## Claim C1: encrypt/decrypt round trip -/

/-- C1 (amended): for every 32-byte key, every payload of fewer than
`2^32 - 12` bytes, every 12-byte nonce the encryption step may draw, and
every repetition factor `1 ≤ r < 2^32` (default 5), decrypting the
encrypted blob returns exactly the original payload. -/
theorem encrypt_decrypt_roundtrip (r : Nat) (key nonce p : List Nat)
    (hr : 1 ≤ r) (hr32 : r < 2^32) (hk : key.length = 32)
    (hnl : nonce.length = 12) (hnb : ∀ b ∈ nonce, b < 256)
    (hpb : ∀ b ∈ p, b < 256) (hpl : 12 + p.length < 2^32) :
    decrypt_with_error_correction r key
        (encrypt_with_error_correction r key nonce p)
      = .ok p := by
  have hkslen := chachaKeystream_length key nonce p.length hk hnl
  have hctlen : (apply_keystream key nonce p).length = p.length :=
    apply_keystream_length key nonce p hk hnl
  have hctlt : ∀ b ∈ apply_keystream key nonce p, b < 256 :=
    zipWith_xor_lt p _ hpb (chachaKeystream_lt key nonce p.length)
  have hdlen : (nonce ++ apply_keystream key nonce p).length = 12 + p.length := by
    rw [List.length_append, hnl, hctlen]
  have hdb : ∀ b ∈ nonce ++ apply_keystream key nonce p, b < 256 := by
    intro b hb
    rcases List.mem_append.mp hb with h | h
    · exact hnb b h
    · exact hctlt b h
  have hdec : apply_repetition_decoding r
      (apply_repetition_encoding r (nonce ++ apply_keystream key nonce p))
        = .ok (nonce ++ apply_keystream key nonce p) := by
    apply apply_repetition_decoding_majority r _ _ hr32 (by omega) hdb
      (apply_repetition_encoding_length r _)
      (by
        rw [apply_repetition_encoding_eq]
        exact List.take_left' (by simp [toLE4]))
    intro i hi
    have hslice : (((apply_repetition_encoding r
          (nonce ++ apply_keystream key nonce p))).drop (4 + i * r)).take r
        = List.replicate r ((nonce ++ apply_keystream key nonce p).getD i 0) := by
      rw [apply_repetition_encoding_eq, List.drop_append_eq_append_drop,
        List.drop_eq_nil_of_le (by simp [toLE4]), List.nil_append,
        show (4 + i * r) - (toLE4 ((nonce ++ apply_keystream key nonce p).length % 2^32)).length
            = i * r from by simp [toLE4]]
      exact flatMap_replicate_slice r _ i hi
    rw [hslice]
    have hzero : (List.replicate r ((nonce ++ apply_keystream key nonce p).getD i 0)).countP
        (fun b => b ≠ (nonce ++ apply_keystream key nonce p).getD i 0) = 0 := by
      apply List.countP_eq_zero.mpr
      intro a ha
      rcases List.mem_replicate.mp ha with ⟨_, rfl⟩
      simp
    rw [hzero]
    omega
  simp only [encrypt_with_error_correction] at *
  simp only [decrypt_with_error_correction, hdec]
  rw [if_neg (by omega : ¬ (nonce ++ apply_keystream key nonce p).length < 12)]
  rw [List.take_left' hnl, List.drop_left' hnl]
  refine congrArg Except.ok ?_
  rw [apply_keystream, hctlen, apply_keystream]
  exact zipWith_xor_cancel p (chachaKeystream key nonce p.length) (by rw [hkslen])

/-- C1 witness at a concrete key, nonce, payload and the default
repetition factor 5. -/
theorem encrypt_decrypt_roundtrip_witness :
    decrypt_with_error_correction 5 (List.replicate 32 0)
        (encrypt_with_error_correction 5 (List.replicate 32 0)
          (List.replicate 12 0) [72, 105])
      = .ok [72, 105] :=
  encrypt_decrypt_roundtrip 5 (List.replicate 32 0) (List.replicate 12 0) [72, 105]
    (by norm_num) (by norm_num) (List.length_replicate 32 0) (List.length_replicate 12 0)
    (fun b hb => by rcases List.mem_replicate.mp hb with ⟨_, rfl⟩; norm_num)
    (by decide) (by norm_num)

/-- For a payload whose nonce-extended length is a nonzero multiple of
`2^32`, the repetition length header wraps and decryption fails. -/
theorem decrypt_encrypt_wrap (r : Nat) (key nonce p : List Nat)
    (hr : 1 ≤ r) (hk : key.length = 32) (hnl : nonce.length = 12)
    (hm : (12 + p.length) % 2^32 = 0) :
    decrypt_with_error_correction r key
        (encrypt_with_error_correction r key nonce p)
      = .error (.cryptoError "Repetition decoding failed") := by
  have hdlen : (nonce ++ apply_keystream key nonce p).length = 12 + p.length := by
    rw [List.length_append, hnl, apply_keystream_length key nonce p hk hnl]
  have hdec := repetition_decoding_wrap r (nonce ++ apply_keystream key nonce p)
    (by rw [hdlen]; exact hm)
    (by
      apply Nat.mul_ne_zero
      · omega
      · omega)
  simp only [encrypt_with_error_correction]
  simp only [decrypt_with_error_correction, hdec]

/-- C1 counterexample: a payload of `2^32 - 12` bytes (so the combined
nonce-and-ciphertext blob is `2^32` bytes long) makes the 32-bit length
header wrap, and the round trip fails instead of returning the
payload. -/
theorem encrypt_decrypt_wrap_counterexample :
    decrypt_with_error_correction 5 (List.replicate 32 0)
        (encrypt_with_error_correction 5 (List.replicate 32 0)
          (List.replicate 12 0) (List.replicate (2^32 - 12) 0))
      ≠ .ok (List.replicate (2^32 - 12) 0) := by
  rw [decrypt_encrypt_wrap 5 (List.replicate 32 0) (List.replicate 12 0)
    (List.replicate (2^32 - 12) 0) (by norm_num)
    (List.length_replicate 32 0) (List.length_replicate 12 0)
    (by rw [List.length_replicate]; norm_num)]
  intro h
  exact Except.noConfusion h

/-! ## Claim C4: capacity check of the hide operation -/

/-- C4: hiding fails exactly when the framed bitstream
`32 + 8*len(payload)` exceeds the capacity
`ceil(width/8) * ceil(height/8)`, the error is a capacity error carrying
exactly those two counts, and no image is produced in that case — for
every image, payload, and per-block embedding update. -/
theorem hide_data_capacity_check (embed : RgbImage → Nat → Nat → Nat → RgbImage)
    (img : RgbImage) (data : List Nat) :
    ((∃ e, hide_data_in_rgb_image defaultConfiguration embed img data = .error e) ↔
      32 + 8 * data.length > ((img.width + 7) / 8) * ((img.height + 7) / 8)) ∧
    (∀ e, hide_data_in_rgb_image defaultConfiguration embed img data = .error e →
      e = .capacityError (32 + 8 * data.length)
        (((img.width + 7) / 8) * ((img.height + 7) / 8))) := by
  have h1 : img.width + 8 - 1 = img.width + 7 := by omega
  have h2 : img.height + 8 - 1 = img.height + 7 := by omega
  have hcap : calculate_capacity_bits defaultConfiguration img
      = ((img.width + 7) / 8) * ((img.height + 7) / 8) := by
    simp [calculate_capacity_bits, defaultConfiguration, h1, h2]
  have hbits := convert_data_to_bits_with_header_length data
  by_cases hc : (convert_data_to_bits_with_header data).length
      > calculate_capacity_bits defaultConfiguration img
  · refine ⟨⟨fun _ => by omega, fun _ =>
      ⟨.capacityError (convert_data_to_bits_with_header data).length
        (calculate_capacity_bits defaultConfiguration img),
        by simp [hide_data_in_rgb_image, hc]⟩⟩, ?_⟩
    intro e he
    simp only [hide_data_in_rgb_image, if_pos hc] at he
    have hinj := Except.error.inj he
    rw [← hinj, hcap]
    have hbits' : (convert_data_to_bits_with_header data).length
        = 32 + 8 * data.length := by omega
    rw [hbits']
  · have hc' : ¬ 32 + 8 * data.length
        > ((img.width + 7) / 8) * ((img.height + 7) / 8) := by omega
    refine ⟨⟨?_, fun h => absurd h hc'⟩, ?_⟩
    · rintro ⟨e, he⟩
      simp [hide_data_in_rgb_image, hc] at he
    · intro e he
      simp [hide_data_in_rgb_image, hc] at he

/-! ## Claim C7: two-tier bit extraction decision -/

/-- The vote-counting fold of `extract_bit_robustly` accumulates exactly
the counts of strongly-positive and strongly-negative coefficients. -/
theorem vote_foldl (block : Nat → Nat → ℚ) :
    ∀ (l : List (Nat × Nat)) (a b : Nat),
      l.foldl (fun (v : Nat × Nat) pc =>
          if block pc.1 pc.2 > 10 then (v.1 + 1, v.2)
          else if block pc.1 pc.2 < -10 then (v.1, v.2 + 1)
          else v) (a, b)
        = (a + l.countP (fun pc => block pc.1 pc.2 > 10),
           b + l.countP (fun pc => block pc.1 pc.2 < -10)) := by
  intro l
  induction l with
  | nil => intro a b; simp
  | cons pc rest ih =>
    intro a b
    rw [List.foldl_cons]
    by_cases hpos : block pc.1 pc.2 > 10
    · have hneg : ¬ block pc.1 pc.2 < -10 := by linarith
      rw [if_pos hpos, ih, List.countP_cons, List.countP_cons]
      simp [hpos, hneg, Prod.mk.injEq, Nat.add_comm, Nat.add_assoc, Nat.add_left_comm]
    · by_cases hneg : block pc.1 pc.2 < -10
      · rw [if_neg hpos, if_pos hneg, ih, List.countP_cons, List.countP_cons]
        simp [hpos, hneg, Prod.mk.injEq, Nat.add_comm, Nat.add_assoc, Nat.add_left_comm]
      · rw [if_neg hpos, if_neg hneg, ih, List.countP_cons, List.countP_cons]
        simp [hpos, hneg, Prod.mk.injEq]

/-- C7: extracting a bit is the two-tier decision — each of the first
four configured positions votes 1 when its coefficient exceeds 10, votes
0 when it is below -10, and abstains otherwise; a strict majority wins,
and any tie (including all-abstain) falls back to the sign (`> 0`) of
the coefficient at the primary position. -/
theorem extract_bit_two_tier (bs : Nat) (es ms : ℚ) (p0 p1 p2 p3 : Nat × Nat)
    (rest : List (Nat × Nat)) (block : Nat → Nat → ℚ) :
    extract_bit_robustly ⟨bs, p0 :: p1 :: p2 :: p3 :: rest, es, ms⟩ block
      = if [p0, p1, p2, p3].countP (fun pc => block pc.1 pc.2 > 10)
            > [p0, p1, p2, p3].countP (fun pc => block pc.1 pc.2 < -10) then 1
        else if [p0, p1, p2, p3].countP (fun pc => block pc.1 pc.2 < -10)
            > [p0, p1, p2, p3].countP (fun pc => block pc.1 pc.2 > 10) then 0
        else if block p0.1 p0.2 > 0 then 1 else 0 := by
  have hmin : min 4 (p0 :: p1 :: p2 :: p3 :: rest).length = 4 := by
    simp only [List.length_cons]
    omega
  have htake : (p0 :: p1 :: p2 :: p3 :: rest).take
      (min 4 (p0 :: p1 :: p2 :: p3 :: rest).length) = [p0, p1, p2, p3] := by
    rw [hmin]
    rfl
  simp only [extract_bit_robustly, htake, vote_foldl block [p0, p1, p2, p3] 0 0,
    Nat.zero_add, List.getD_cons_zero]

/-! ## Claim C8: coefficient overwrite on embedding -/

/-- The minimum-step clamp inside the strength computation is absorbed
by the configured strength 25, since `4 * 3 = 12 ≤ 25`. -/
theorem max_strength_eq (q : ℚ) : max 25 (max q 4 * 3) = max 25 (q * 3) := by
  rcases le_total q 4 with h | h
  · rw [max_eq_right h, max_eq_left (by norm_num : (4:ℚ) * 3 ≤ 25),
      max_eq_left (by nlinarith : q * 3 ≤ 25)]
  · rw [max_eq_left h]

/-- C8: with the default configuration, embedding a bit overwrites each
of the four used coefficient positions with
`±max(25, quantization_step * 3)` — positive for bit 1, negative
otherwise — and leaves every other position unchanged, for every block,
bit value and quantization table. -/
theorem embed_bit_overwrite (block qt : Nat → Nat → ℚ) (bit : Nat) :
    (∀ pc ∈ ([(4, 1), (1, 4), (3, 2), (2, 3)] : List (Nat × Nat)),
      embed_bit_robustly defaultConfiguration block bit qt pc.1 pc.2
        = if bit = 1 then max 25 (qt pc.1 pc.2 * 3)
          else -max 25 (qt pc.1 pc.2 * 3)) ∧
    (∀ y x : Nat, (y, x) ∉ ([(4, 1), (1, 4), (3, 2), (2, 3)] : List (Nat × Nat)) →
      embed_bit_robustly defaultConfiguration block bit qt y x = block y x) := by
  constructor
  · intro pc hpc
    fin_cases hpc <;>
      simp [embed_bit_robustly, defaultConfiguration, max_strength_eq]
  · intro y x h
    simp only [List.mem_cons, List.not_mem_nil, or_false, not_or] at h
    obtain ⟨n1, n2, n3, n4⟩ := h
    have m1 : ¬ (y = 4 ∧ x = 1) := by
      rintro ⟨rfl, rfl⟩; exact n1 rfl
    have m2 : ¬ (y = 1 ∧ x = 4) := by
      rintro ⟨rfl, rfl⟩; exact n2 rfl
    have m3 : ¬ (y = 3 ∧ x = 2) := by
      rintro ⟨rfl, rfl⟩; exact n3 rfl
    have m4 : ¬ (y = 2 ∧ x = 3) := by
      rintro ⟨rfl, rfl⟩; exact n4 rfl
    simp [embed_bit_robustly, defaultConfiguration, m1, m2, m3, m4]

/-! ## Claim C10: totality and bounds of the quantization table -/

theorem floorClamp_bounds (v : ℚ) : 1 ≤ floorClamp v ∧ floorClamp v ≤ 255 := by
  rw [floorClamp]
  constructor
  · have h : (1:ℤ) ≤ max 1 (min 255 ⌊v⌋) := le_max_left _ _
    exact_mod_cast h
  · have h : max 1 (min 255 ⌊v⌋) ≤ (255:ℤ) :=
      max_le (by norm_num) (min_le_left _ _)
    exact_mod_cast h

/-- C10: the quantization table is total in the quality argument — the
quality is first clamped into `[1, 100]`, so qualities 0 and above 100
behave like 1 and 100 — and every entry lies in `[1, 255]` (in
particular all entries are strictly positive). -/
theorem calculate_quantization_table_bounds (q : Nat) :
    calculate_quantization_table q
        = calculate_quantization_table (min (max q 1) 100) ∧
    ∀ row col : Nat, 1 ≤ calculate_quantization_table q row col ∧
      calculate_quantization_table q row col ≤ 255 := by
  constructor
  · have h : min (max (min (max q 1) 100) 1) 100 = min (max q 1) 100 := by omega
    rw [calculate_quantization_table, calculate_quantization_table, h]
  · intro row col
    exact floorClamp_bounds _

end Steg
